import Mathlib

/-!
Shallow embedding of `webpack-subresource-integrity` (src/index.js).

Chunk contents are modelled as lists of characters (`Str`), chunk graphs as a
function from a chunk id to the list of its child chunk ids, and the webpack
asset table as an association list from output file name to asset.  External
collaborators (node's `crypto`, `path`, webpack-core's `ReplaceSource`, JS
`String.prototype.indexOf`) are modelled by their documented observable
behaviour: the hash primitive is an abstract parameter, `indexOf` is
first-occurrence substring search, and `ReplaceSource` is splice-at-positions
(positions taken against the original source, replacements sorted by their end
position, descending, before splicing).  Recursive JS functions are embedded
with an explicit fuel argument bounding the call depth; `none` means the fuel
was exhausted (the JS analogue of unbounded recursion / stack overflow) or a
runtime type error (a chunk file absent from the asset table).
-/

set_option maxRecDepth 8000

namespace SRI

/-- Chunk/asset content: a JS string, modelled as a list of characters. -/
abbrev Str := List Char

/-- src/index.js `makePlaceholder(id)`:
`'*-*-*-CHUNK-SRI-HASH-' + id + '-*-*-*'`. -/
def makePlaceholder (id : Nat) : Str :=
  "*-*-*-CHUNK-SRI-HASH-".data ++ (Nat.repr id).data ++ "-*-*-*".data

/-- Predicate `leadsWith pat s`: holds when `pat` is an initial run of `s`
(helper for substring search). -/
def leadsWith : Str → Str → Bool
  | [], _ => true
  | _ :: _, [] => false
  | a :: as, b :: bs => a = b && leadsWith as bs

/-- JS `String.prototype.indexOf` (external builtin): index of the first
occurrence of `pat` in `s`, or `none` when there is no occurrence. -/
def indexOfSub : Str → Str → Option Nat
  | [], pat => if leadsWith pat [] then some 0 else none
  | c :: tl, pat =>
    if leadsWith pat (c :: tl) then some 0
    else Option.map (fun i => i + 1) (indexOfSub tl pat)

/-- The accumulator push of src/index.js lines 11-13: push `d` only when it is
not already present (`if (!allDepChunkIds.includes(depChunk.id)) push`). -/
def pushNew (acc : List Nat) (d : Nat) : List Nat :=
  if d ∈ acc then acc else acc ++ [d]

/-- One level of the `chunk.chunks.forEach` loop of src/index.js
`findDepChunks` (lines 10-15): for each child `d` in order, push its id if not
already accumulated, then descend into `d` unconditionally — whether or not `d`
was already accumulated — via `descend` (the recursive call one level down). -/
def findDepStep (descend : Nat → List Nat → Option (List Nat)) :
    List Nat → List Nat → Option (List Nat)
  | [], acc => some acc
  | d :: ds, acc =>
    match descend d (pushNew acc d) with
    | none => none
    | some acc2 => findDepStep descend ds acc2

/-- The body of src/index.js `findDepChunks` at a given remaining recursion
depth: run the child loop, descending with one unit of fuel less.  `fuel`
bounds the call depth; `none` models the JS stack overflow when it runs out. -/
def findDepAux (g : Nat → List Nat) : Nat → List Nat → List Nat → Option (List Nat)
  | 0, l, acc =>
    match l with
    | [] => some acc
    | _ :: _ => none
  | Nat.succ f, l, acc =>
    findDepStep (fun d acc2 => findDepAux g f (g d) acc2) l acc

/-- src/index.js `findDepChunks(chunk, allDepChunkIds)`: depth-first
accumulation of dependent chunk ids, fuel-bounded. -/
def findDepChunks (g : Nat → List Nat) (fuel : Nat) (c : Nat) (acc : List Nat) :
    Option (List Nat) :=
  match fuel with
  | 0 => none
  | Nat.succ f => findDepAux g f (g c) acc

/-- Reachability in the chunk graph through one or more child edges. -/
inductive Reach (g : Nat → List Nat) : Nat → Nat → Prop
  | child {c d : Nat} : d ∈ g c → Reach g c d
  | step {c d e : Nat} : d ∈ g c → Reach g d e → Reach g c e

/-- One pending replacement of webpack-core's `ReplaceSource` (external
collaborator): replace the inclusive span `[lo, hi]` of the original source
with `txt`. -/
structure Repl where
  lo : Nat
  hi : Nat
  txt : Str
deriving DecidableEq

/-- Insert into a list that is sorted by `hi` descending, keeping insertion
order on ties (a stable sort, as `Array.prototype.sort` with
`(a, b) => b.end - a.end`). -/
def insertRepl (r : Repl) : List Repl → List Repl
  | [] => [r]
  | x :: xs => if r.hi ≤ x.hi then x :: insertRepl r xs else r :: x :: xs

/-- Sort the recorded replacements by end position, descending (stable). -/
def sortRepls (rs : List Repl) : List Repl :=
  rs.foldl (fun acc r => insertRepl r acc) []

/-- Apply one replacement by splicing, as `ReplaceSource` does:
`str.substr(0, lo) + txt + str.substr(hi + 1)`. -/
def spliceOne (s : Str) (r : Repl) : Str :=
  s.take r.lo ++ r.txt ++ s.drop (r.hi + 1)

/-- Method `ReplaceSource.source()`: sort the replacements by end position descending
and splice each into the original source back to front. -/
def applyRepls (s : Str) (rs : List Repl) : Str :=
  (sortRepls rs).foldl spliceOne s

/-- JS `.join(' ')` on a list of strings. -/
def joinSpace : List Str → Str
  | [] => []
  | [x] => x
  | x :: y :: xs => x ++ ' ' :: joinSpace (y :: xs)

/-- src/index.js `computeIntegrity(source)` (lines 73-78): for each configured
algorithm, `algo + '-' + base64(hash(algo, source))`, joined by single spaces.
The hash/base64 primitive (node `crypto`, an external collaborator) is the
abstract parameter `hashFn`. -/
def computeIntegrity (algos : List String) (hashFn : String → Str → Str)
    (content : Str) : Str :=
  joinSpace (algos.map (fun a => a.data ++ '-' :: hashFn a content))

/-- A webpack asset: its current source text and the `integrity` annotation
attached by the plugin (`none` = the JS property is still `undefined`). -/
structure Asset where
  src : Str
  integrity : Option Str
deriving DecidableEq

/-- JS falsiness of the `integrity` property: `undefined` or `''`. -/
def isFalsyIntegrity (o : Option Str) : Bool :=
  match o with
  | none => true
  | some s => s.isEmpty

/-- Read `assets[key]` (JS object read). -/
def getAsset : List (String × Asset) → String → Option Asset
  | [], _ => none
  | (k, a) :: tl, key => if k = key then some a else getAsset tl key

/-- Write `assets[key] = a` (JS object write). -/
def setAsset : List (String × Asset) → String → Asset → List (String × Asset)
  | [], key, a => [(key, a)]
  | (k, b) :: tl, key, a =>
    if k = key then (key, a) :: tl else (k, b) :: setAsset tl key a

/-- Read `hashByChunkId[id]` (JS object read). -/
def getHash : List (Nat × Str) → Nat → Option Str
  | [], _ => none
  | (k, h) :: tl, id => if k = id then some h else getHash tl id

/-- Write `hashByChunkId[id] = h` (JS object write). -/
def setHash : List (Nat × Str) → Nat → Str → List (Nat × Str)
  | [], id, h => [(id, h)]
  | (k, h0) :: tl, id, h =>
    if k = id then (id, h) :: tl else (k, h0) :: setHash tl id h

/-- Value `hashByChunkId[depChunkId]` as spliced into the content: an absent entry is
JS `undefined`, which string-splicing renders as the text `undefined`. -/
def hashOrUndef (hb : List (Nat × Str)) (d : Nat) : Str :=
  match getHash hb d with
  | some h => h
  | none => "undefined".data

/-- The replacement-recording loop of src/index.js lines 114-123: for each
dependent chunk id, look for its placeholder in the (pre-substitution) source
`old`; when found, record a replacement of the placeholder span by the
dependent chunk's stored hash; when absent, record nothing. -/
def replacementsFor (old : Str) (depIds : List Nat) (hb : List (Nat × Str)) :
    List Repl :=
  depIds.filterMap fun d =>
    match indexOfSub old (makePlaceholder d) with
    | none => none
    | some pos =>
      some ⟨pos, pos + (makePlaceholder d).length - 1, hashOrUndef hb d⟩

/-- The chunk graph and configuration visible to the optimize-assets handler:
child ids and output file names per chunk id, the configured algorithm list and
the abstract hash primitive. -/
structure Ctx where
  children : Nat → List Nat
  files : Nat → List String
  algos : List String
  hashFn : String → Str → Str

/-- The mutable state of one optimize-assets run: `hashByChunkId`,
`visitedByChunkId` (as the list of visited ids), the asset table, and
`hashLog`, which records — in order — each chunk id whose digest is computed
(one entry appended at the single `computeIntegrity` call site for chunks,
src/index.js line 128; instrumentation used to state exactly-once hashing). -/
structure RState where
  hashByChunkId : List (Nat × Str)
  visited : List Nat
  assets : List (String × Asset)
  hashLog : List Nat
deriving DecidableEq

/-- The `chunk.chunks.forEach` loop of src/index.js lines 104-106:
`depChunkIds = depChunkIds.concat(processChunkRecursive(depChunk))` over the
children in order, with `step` the recursive call one level down. -/
def pcrFold (step : Nat → RState → Option (List Nat × RState)) :
    List Nat → RState → Option (List Nat × RState)
  | [], s => some ([], s)
  | d :: ds, s =>
    match step d s with
    | none => none
    | some (ids1, s1) =>
      match pcrFold step ds s1 with
      | none => none
      | some (ids2, s2) => some (ids1 ++ ids2, s2)

/-- src/index.js `processChunkRecursive(chunk)` (lines 96-131), fuel-bounded.
Returns the chunk-id list the JS function returns, with the state threaded
explicitly.  `none` models fuel exhaustion or a chunk file missing from the
asset table (a JS runtime error). -/
def processChunkRecursive (ctx : Ctx) : Nat → Nat → RState → Option (List Nat × RState)
  | 0, _, _ => none
  | Nat.succ fuel, c, s =>
    if c ∈ s.visited then some ([], s)
    else
      let s1 : RState := { s with visited := c :: s.visited }
      match pcrFold (fun d s2 => processChunkRecursive ctx fuel d s2) (ctx.children c) s1 with
      | none => none
      | some (depIds, s2) =>
        match ctx.files c with
        | [] => some (c :: depIds, s2)
        | file :: _ =>
          match getAsset s2.assets file with
          | none => none
          | some asset =>
            let newSrc :=
              applyRepls asset.src (replacementsFor asset.src depIds s2.hashByChunkId)
            let digest := computeIntegrity ctx.algos ctx.hashFn newSrc
            let s3 : RState :=
              { s2 with
                assets := setAsset s2.assets file ⟨newSrc, some digest⟩,
                hashByChunkId := setHash s2.hashByChunkId c digest,
                hashLog := s2.hashLog ++ [c] }
            some (c :: depIds, s3)

/-- The roots loop of src/index.js lines 133-138: `processChunkRecursive` is
started once for every entry chunk, all sharing one visited set and hash map.
`roots` is `compilation.chunks` filtered by the entry/hasRuntime test. -/
def pcrRoots (ctx : Ctx) (fuel : Nat) : List Nat → RState → Option RState
  | [], s => some s
  | r :: rs, s =>
    match processChunkRecursive ctx fuel r s with
    | none => none
    | some (_, s1) => pcrRoots ctx fuel rs s1

/-- The asset sweep of src/index.js lines 140-147: every asset whose
`integrity` is still falsy gets a digest computed directly from its current
content, with no substitution step. -/
def sweepAssets (algos : List String) (hashFn : String → Str → Str) :
    List (String × Asset) → List (String × Asset)
  | [] => []
  | (k, a) :: tl =>
    (k,
      if isFalsyIntegrity a.integrity then
        { a with integrity := some (computeIntegrity algos hashFn a.src) }
      else a)
      :: sweepAssets algos hashFn tl

/-- src/index.js `optimizeAssetsPlugin(assets, callback)` (lines 93-150):
run the resolution pass from every root, then sweep the remaining assets.
Returns the final asset table together with the final resolver state (the
`callback()` at line 149 carries no data and is omitted). -/
def optimizeAssetsPlugin (ctx : Ctx) (roots : List Nat) (fuel : Nat)
    (assets0 : List (String × Asset)) : Option (List (String × Asset) × RState) :=
  match pcrRoots ctx fuel roots ⟨[], [], assets0, []⟩ with
  | none => none
  | some s => some (sweepAssets ctx.algos ctx.hashFn s.assets, s)

/-- A markup tag as html-webpack-plugin hands it over: its name and the
attributes src/index.js reads or writes (`none` = attribute absent). -/
structure Tag where
  tagName : String
  href : Option String
  src : Option String
  integrity : Option String
  crossorigin : Option String
deriving DecidableEq

/-- ASCII `[a-zA-Z0-9]` of the query-stripping regex. -/
def isAlnumAscii (c : Char) : Bool :=
  ('a' ≤ c && c ≤ 'z') || ('A' ≤ c && c ≤ 'Z') || ('0' ≤ c && c ≤ '9')

/-- JS `src.replace(/\?[a-zA-Z0-9]+$/, '')` (src/index.js line 155): drop the
leftmost — hence only — occurrence of `?` followed by one or more ASCII
alphanumerics running to the end of the string; otherwise leave the string
unchanged. -/
def stripQueryList : Str → Str
  | [] => []
  | c :: cs =>
    if c = '?' && !cs.isEmpty && cs.all isAlnumAscii then []
    else c :: stripQueryList cs

/-- JS `a || b` on two possibly-absent strings (`''` and `undefined` are
falsy). -/
def jsOrStr : Option String → Option String → Option String
  | some s, b => if s = "" then b else some s
  | none, b => b

/-- src/index.js `getTagSrc(tag)` (lines 152-156):
`tag.attributes.href || tag.attributes.src`, query-stripped.  A falsy JS result
(`undefined`, or the empty string before or after stripping) is collapsed to
`none`. -/
def getTagSrc (t : Tag) : Option String :=
  match jsOrStr t.href t.src with
  | none => none
  | some s =>
    if s = "" then none
    else
      let r : String := ⟨stripQueryList s.data⟩
      if r = "" then none else some r

/-- src/index.js `filterTag(tag)` (lines 158-161): script and link tags with a
truthy source reference. -/
def filterTag (t : Tag) : Bool :=
  (t.tagName = "script" || t.tagName = "link") && (getTagSrc t).isSome

/-- src/index.js `processTag(tag)` (lines 174-190).  `resolveSrc` models the
external `path.relative`/`path.resolve` arithmetic of lines 175-179 mapping the
stripped reference to the output-asset key; `getIntegrity` models
`getIntegrityChecksumForAsset` (lines 163-166: `asset && asset.integrity`,
`none` for a missing asset or falsy integrity).  The second component is the
warning: `some key` when the lookup failed and the tag is left unmodified. -/
def processTag (resolveSrc : String → String) (getIntegrity : String → Option String)
    (t : Tag) : Tag × Option String :=
  match getTagSrc t with
  | none => (t, none)
  | some s =>
    match getIntegrity (resolveSrc s) with
    | none => (t, some (resolveSrc s))
    | some checksum =>
      ({ t with integrity := some checksum, crossorigin := some "anonymous" }, none)

/-- A JS value as the plugin constructor may receive it for `algorithms`. -/
inductive JsValue where
  | str : String → JsValue
  | arr : List JsValue → JsValue
  | num : Int → JsValue
  | nul : JsValue
  | undef : JsValue

/-- src/index.js `SubresourceIntegrityPlugin(algorithms)` (lines 57-67): a
string is wrapped into a one-element list; a non-array raises
`Expected an array of strings or a string`; an empty array raises
`Algorithms array must not be empty`; any other array is stored unchanged. -/
def SubresourceIntegrityPlugin : JsValue → Except String (List JsValue)
  | JsValue.str s => Except.ok [JsValue.str s]
  | JsValue.arr l =>
    if l.length = 0 then Except.error "Algorithms array must not be empty"
    else Except.ok l
  | _ => Except.error "Expected an array of strings or a string"

/-- Returns `true` on a successful construction (helper for stating the error
contract). -/
def ctorOk : Except String (List JsValue) → Bool
  | Except.ok _ => true
  | Except.error _ => false

/-! Concrete fixtures used by counterexamples and witnesses. -/

/-- A self-loop chunk graph: chunk 0 lists itself as a child. -/
def loopG : Nat → List Nat := fun _ => [0]

/-- A two-chunk chain 0 → 1 with a one-step depth measure. -/
def wG : Nat → List Nat := fun n => if n = 0 then [1] else []

/-- Depth measure for `wG`. -/
def wM : Nat → Nat := fun n => if n = 0 then 1 else 0

/-- The diamond chunk graph 0 → {1, 2}, 1 → 3, 2 → 3. -/
def dG : Nat → List Nat := fun n =>
  if n = 0 then [1, 2] else if n = 1 then [3] else if n = 2 then [3] else []

/-- Output files of the diamond chunks. -/
def dFiles : Nat → List String := fun n =>
  if n = 0 then ["a.js"]
  else if n = 1 then ["b.js"]
  else if n = 2 then ["c.js"]
  else if n = 3 then ["d.js"]
  else []

/-- A stand-in hash primitive for concrete runs: wraps the content in `#`. -/
def tHash : String → Str → Str := fun _ c => '#' :: c ++ ['#']

/-- Diamond run context: single algorithm `sha256`, stand-in hash. -/
def dCtx : Ctx := ⟨dG, dFiles, ["sha256"], tHash⟩

/-- Diamond assets: both b.js and c.js carry chunk 3's placeholder, a.js
carries the placeholders of chunks 1, 2 and 3, and extra.txt is an output
outside the chunk graph. -/
def dAssets : List (String × Asset) :=
  [("a.js", ⟨"A".data ++ makePlaceholder 1 ++ makePlaceholder 2 ++ makePlaceholder 3, none⟩),
   ("b.js", ⟨"B".data ++ makePlaceholder 3, none⟩),
   ("c.js", ⟨"C".data ++ makePlaceholder 3, none⟩),
   ("d.js", ⟨"D".data, none⟩),
   ("extra.txt", ⟨"EXTRA".data, none⟩)]

/-- Content carrying the placeholder of chunk 5 twice. -/
def c9old : Str :=
  "ab".data ++ makePlaceholder 5 ++ "cd".data ++ makePlaceholder 5

/-- Relation between the resolver state before and after a call: the visited
set only grows, and the digest log is extended by a duplicate-free block of
ids, none of which was visited when the call started and all of which are
visited when it returns. -/
def LogSpec (s s2 : RState) : Prop :=
  (∀ i ∈ s.visited, i ∈ s2.visited) ∧
  ∃ nl, s2.hashLog = s.hashLog ++ nl ∧ nl.Nodup ∧
    ∀ i ∈ nl, i ∉ s.visited ∧ i ∈ s2.visited

/-! Theorems. -/

/-- C5: for a non-empty configured algorithm list, the integrity string is the
head fragment `<algo>-<digest>` followed, when further algorithms exist, by a
single space and the remaining algorithms' integrity string, each fragment's
digest computed over the same content; instantiated at
`["sha256", "sha384"]`. -/
theorem sri_C5_digest_format :
    (∀ (a : String) (as : List String) (hf : String → Str → Str) (c : Str),
      computeIntegrity (a :: as) hf c =
        (a.data ++ '-' :: hf a c) ++
          (if as = [] then [] else ' ' :: computeIntegrity as hf c)) ∧
    (∀ (hf : String → Str → Str) (c : Str),
      computeIntegrity ["sha256", "sha384"] hf c =
        "sha256".data ++ '-' :: hf "sha256" c ++
          ' ' :: ("sha384".data ++ '-' :: hf "sha384" c)) := by
  have h1 : ∀ (a : String) (as : List String) (hf : String → Str → Str) (c : Str),
      computeIntegrity (a :: as) hf c =
        (a.data ++ '-' :: hf a c) ++
          (if as = [] then [] else ' ' :: computeIntegrity as hf c) := by
    intro a as hf c
    cases as with
    | nil => simp [computeIntegrity, joinSpace]
    | cons b bs => simp [computeIntegrity, joinSpace]
  refine ⟨h1, fun hf c => ?_⟩
  rw [h1, h1]
  simp

/-- C7: construction succeeds exactly on a string or a non-empty array; a
string is wrapped into a one-element list, a non-empty array is stored as-is,
and everything else (empty array included) raises a configuration error. -/
theorem sri_C7_constructor_contract (v : JsValue) :
    (ctorOk (SubresourceIntegrityPlugin v) = true ↔
      ((∃ s, v = JsValue.str s) ∨ (∃ l, v = JsValue.arr l ∧ l ≠ []))) ∧
    (∀ s, v = JsValue.str s →
      SubresourceIntegrityPlugin v = Except.ok [JsValue.str s]) ∧
    (∀ l, v = JsValue.arr l → l ≠ [] → SubresourceIntegrityPlugin v = Except.ok l) := by
  refine ⟨?_, ?_, ?_⟩
  · cases v with
    | str s => simp [SubresourceIntegrityPlugin, ctorOk]
    | arr l =>
      by_cases h : l = []
      · subst h; simp [SubresourceIntegrityPlugin, ctorOk]
      · simp [SubresourceIntegrityPlugin, ctorOk, List.length_eq_zero, h]
    | num n => simp [SubresourceIntegrityPlugin, ctorOk]
    | nul => simp [SubresourceIntegrityPlugin, ctorOk]
    | undef => simp [SubresourceIntegrityPlugin, ctorOk]
  · intro s hs
    subst hs
    rfl
  · intro l hl hne
    subst hl
    simp [SubresourceIntegrityPlugin, List.length_eq_zero, hne]

/-- C7 witness: a null input and the empty array are rejected, a string is
wrapped, a non-empty array is accepted. -/
theorem sri_C7_constructor_contract_w :
    ctorOk (SubresourceIntegrityPlugin JsValue.nul) = false ∧
    ctorOk (SubresourceIntegrityPlugin (JsValue.arr [])) = false ∧
    SubresourceIntegrityPlugin (JsValue.str "sha256") = Except.ok [JsValue.str "sha256"] ∧
    SubresourceIntegrityPlugin (JsValue.arr [JsValue.str "sha256", JsValue.str "sha384"]) =
      Except.ok [JsValue.str "sha256", JsValue.str "sha384"] := by
  refine ⟨?_, ?_, ?_, ?_⟩
  · cases hc : ctorOk (SubresourceIntegrityPlugin JsValue.nul) with
    | false => rfl
    | true =>
      rcases (sri_C7_constructor_contract JsValue.nul).1.mp hc with ⟨s, hs⟩ | ⟨l, hl, _⟩
      · exact absurd hs (by simp)
      · exact absurd hl (by simp)
  · cases hc : ctorOk (SubresourceIntegrityPlugin (JsValue.arr [])) with
    | false => rfl
    | true =>
      rcases (sri_C7_constructor_contract (JsValue.arr [])).1.mp hc with ⟨s, hs⟩ | ⟨l, hl, hne⟩
      · exact absurd hs (by simp)
      · injection hl with hl2
        exact absurd hl2.symm hne
  · exact (sri_C7_constructor_contract (JsValue.str "sha256")).2.1 "sha256" rfl
  · exact (sri_C7_constructor_contract
      (JsValue.arr [JsValue.str "sha256", JsValue.str "sha384"])).2.2
      [JsValue.str "sha256", JsValue.str "sha384"] rfl (by simp)

/-- C10: the constructor does not validate the elements of an algorithms
array: every non-empty array is accepted and stored unchanged. -/
theorem sri_C10_no_element_validation (l : List JsValue) (h : l ≠ []) :
    SubresourceIntegrityPlugin (JsValue.arr l) = Except.ok l := by
  simp [SubresourceIntegrityPlugin, List.length_eq_zero, h]

/-- C10 witness: an array holding a number and null is accepted unchanged. -/
theorem sri_C10_no_element_validation_w :
    SubresourceIntegrityPlugin (JsValue.arr [JsValue.num 1, JsValue.nul]) =
      Except.ok [JsValue.num 1, JsValue.nul] :=
  sri_C10_no_element_validation [JsValue.num 1, JsValue.nul] (by simp)

/-- Function `indexOfSub` returns the index of the first occurrence: the pattern
matches there and at no earlier position. -/
theorem indexOfSub_first (s pat : Str) (p : Nat) (h : indexOfSub s pat = some p) :
    leadsWith pat (s.drop p) = true ∧ ∀ q, q < p → leadsWith pat (s.drop q) = false := by
  induction s generalizing p with
  | nil =>
    by_cases hl : leadsWith pat [] = true
    · simp [indexOfSub, hl] at h
      subst h
      exact ⟨hl, fun q hq => absurd hq (by omega)⟩
    · simp [indexOfSub, hl] at h
  | cons c tl ih =>
    by_cases hl : leadsWith pat (c :: tl) = true
    · simp [indexOfSub, hl] at h
      subst h
      exact ⟨hl, fun q hq => absurd hq (by omega)⟩
    · simp [indexOfSub, hl] at h
      obtain ⟨p2, hp2, hpp⟩ := h
      subst hpp
      obtain ⟨h1, h2⟩ := ih p2 hp2
      refine ⟨by simpa using h1, fun q hq => ?_⟩
      cases q with
      | zero => simpa using (Bool.eq_false_iff.mpr hl)
      | succ q2 => simpa using h2 q2 (by omega)

/-- C6: when a dependency id's placeholder does not occur in the parent's
content, no replacement is recorded for that id (the substitution list is the
same as if the id were absent), the substitution with that id alone leaves the
content unchanged, and the digest is computed over the unmodified content. -/
theorem sri_C6_missing_placeholder (old : Str) (d : Nat) (l1 l2 : List Nat)
    (hb : List (Nat × Str)) (algos : List String) (hfn : String → Str → Str)
    (h : indexOfSub old (makePlaceholder d) = none) :
    replacementsFor old (l1 ++ d :: l2) hb = replacementsFor old (l1 ++ l2) hb ∧
    applyRepls old (replacementsFor old [d] hb) = old ∧
    computeIntegrity algos hfn (applyRepls old (replacementsFor old [d] hb)) =
      computeIntegrity algos hfn old := by
  have h1 : replacementsFor old (l1 ++ d :: l2) hb = replacementsFor old (l1 ++ l2) hb := by
    unfold replacementsFor
    simp [List.filterMap_append, List.filterMap_cons, h]
  have h2 : applyRepls old (replacementsFor old [d] hb) = old := by
    unfold replacementsFor
    simp [List.filterMap_cons, h, applyRepls, sortRepls]
  exact ⟨h1, h2, by rw [h2]⟩

/-- C6 witness: placeholder 7 does not occur in `hello`, so the substitution
list, content and digest are unaffected by dependency id 7. -/
theorem sri_C6_missing_placeholder_w :
    replacementsFor "hello".data ([1] ++ 7 :: []) [] =
      replacementsFor "hello".data ([1] ++ []) [] ∧
    applyRepls "hello".data (replacementsFor "hello".data [7] []) = "hello".data ∧
    computeIntegrity ["sha256"] tHash
        (applyRepls "hello".data (replacementsFor "hello".data [7] [])) =
      computeIntegrity ["sha256"] tHash "hello".data :=
  sri_C6_missing_placeholder "hello".data 7 [1] [] [] ["sha256"] tHash (by decide)

/-- C9: with the placeholder of dependency `d` first occurring at position `p`,
the substituted content is the original up to `p`, then the stored digest, then
the original tail after the placeholder span — so every later occurrence of the
token survives literally — and `p` really is the first occurrence. -/
theorem sri_C9_first_occurrence_only (old : Str) (d : Nat) (p : Nat)
    (hb : List (Nat × Str)) (h : indexOfSub old (makePlaceholder d) = some p) :
    applyRepls old (replacementsFor old [d] hb) =
      old.take p ++ hashOrUndef hb d ++ old.drop (p + (makePlaceholder d).length) ∧
    leadsWith (makePlaceholder d) (old.drop p) = true ∧
    (∀ q, q < p → leadsWith (makePlaceholder d) (old.drop q) = false) := by
  have hspec := indexOfSub_first old (makePlaceholder d) p h
  have hlen : 0 < (makePlaceholder d).length := by
    have h6 : "-*-*-*".data.length = 6 := rfl
    unfold makePlaceholder
    simp [List.length_append]
  have harith : p + (makePlaceholder d).length - 1 + 1 = p + (makePlaceholder d).length := by
    omega
  have hrep : replacementsFor old [d] hb =
      [⟨p, p + (makePlaceholder d).length - 1, hashOrUndef hb d⟩] := by
    unfold replacementsFor
    simp [List.filterMap_cons, h]
  have happ : applyRepls old (replacementsFor old [d] hb) =
      old.take p ++ hashOrUndef hb d ++ old.drop (p + (makePlaceholder d).length) := by
    rw [hrep]
    simp [applyRepls, sortRepls, insertRepl, spliceOne, harith]
  exact ⟨happ, hspec.1, hspec.2⟩

/-- C9 witness: the token of dependency 5 occurs twice in `c9old`; only the
occurrence at position 2 is replaced and the trailing occurrence survives. -/
theorem sri_C9_first_occurrence_only_w :
    applyRepls c9old (replacementsFor c9old [5] [(5, "XYZ".data)]) =
      c9old.take 2 ++ hashOrUndef [(5, "XYZ".data)] 5 ++
        c9old.drop (2 + (makePlaceholder 5).length) ∧
    leadsWith (makePlaceholder 5) (c9old.drop 2) = true ∧
    (∀ q, q < 2 → leadsWith (makePlaceholder 5) (c9old.drop q) = false) :=
  sri_C9_first_occurrence_only c9old 5 2 [(5, "XYZ".data)] (by decide)

/-- C3 counterexample: the query component `?v=123` contains `=`, which the
regex `\?[a-zA-Z0-9]+$` does not accept, so a tag referencing `app.js?v=123`
does NOT resolve to `app.js` — the reference is left unstripped. -/
theorem sri_C3_query_not_stripped :
    getTagSrc ⟨"script", none, some "app.js?v=123", none, none⟩ = some "app.js?v=123" ∧
    getTagSrc ⟨"script", none, some "app.js?v=123", none, none⟩ ≠ some "app.js" := by
  constructor
  · decide
  · decide

/-- C3 amended: a trailing query component is stripped exactly when it
consists of one or more ASCII alphanumerics (so `app.js?v123` resolves to
`app.js`, while `app.js?v=123` is left unchanged); and for a script/link tag
whose resolved key has an integrity value, the tag gains that value as its
integrity attribute together with crossorigin `anonymous`. -/
theorem sri_C3_amended :
    (∀ base q : Str, q ≠ [] → q.all isAlnumAscii = true →
      stripQueryList (base ++ '?' :: q) = base) ∧
    (∀ s : Str, (∀ b q, s = b ++ '?' :: q → q = [] ∨ q.all isAlnumAscii = false) →
      stripQueryList s = s) ∧
    (∀ (rs : String → String) (gi : String → Option String) (t : Tag) (s cks : String),
      filterTag t = true → getTagSrc t = some s → gi (rs s) = some cks →
      processTag rs gi t =
        ({ t with integrity := some cks, crossorigin := some "anonymous" }, none)) := by
  refine ⟨?_, ?_, ?_⟩
  · intro base q hq hall
    induction base with
    | nil =>
      cases q with
      | nil => exact absurd rfl hq
      | cons a as =>
        show stripQueryList ('?' :: a :: as) = []
        simp [stripQueryList, hall]
    | cons c base2 ih =>
      have hfalse : (base2 ++ '?' :: q).all isAlnumAscii = false := by
        cases hx : (base2 ++ '?' :: q).all isAlnumAscii with
        | false => rfl
        | true =>
          have hmem := List.all_eq_true.mp hx '?' (by simp)
          exact absurd hmem (by decide)
      show stripQueryList (c :: (base2 ++ '?' :: q)) = c :: base2
      simp [stripQueryList, hfalse, ih]
  · intro s hs
    induction s with
    | nil => rfl
    | cons c cs ih =>
      by_cases hc : (c = '?' && !cs.isEmpty && cs.all isAlnumAscii) = true
      · exfalso
        simp only [Bool.and_eq_true, decide_eq_true_eq, Bool.not_eq_true',
          List.isEmpty_eq_false] at hc
        obtain ⟨⟨hceq, hne⟩, hall⟩ := hc
        subst hceq
        rcases hs [] cs rfl with h1 | h2
        · exact hne h1
        · rw [hall] at h2
          exact absurd h2 (by decide)
      · have hc2 : (c = '?' && !cs.isEmpty && cs.all isAlnumAscii) = false :=
          Bool.eq_false_iff.mpr hc
        show stripQueryList (c :: cs) = c :: cs
        simp only [stripQueryList, hc2, if_false]
        exact congrArg (c :: ·) (ih (fun b q hbq => hs (c :: b) q (by rw [hbq]; rfl)))
  · intro rs gi t s cks _hft hsrc hgi
    unfold processTag
    rw [hsrc]
    simp [hgi]

/-- C3 amended witness: `app.js?v123` strips to `app.js`; a query-free
reference is unchanged; a script tag whose key resolves to an asset with
integrity `sha256-AAAA` gains that integrity and crossorigin `anonymous`. -/
theorem sri_C3_amended_w :
    stripQueryList ("app.js".data ++ '?' :: "v123".data) = "app.js".data ∧
    stripQueryList "plain.js".data = "plain.js".data ∧
    processTag (fun k => k) (fun k => if k = "app.js" then some "sha256-AAAA" else none)
        ⟨"script", none, some "app.js?v123", none, none⟩ =
      (⟨"script", none, some "app.js?v123", some "sha256-AAAA", some "anonymous"⟩, none) := by
  refine ⟨sri_C3_amended.1 "app.js".data "v123".data (by decide) (by decide), ?_, ?_⟩
  · apply sri_C3_amended.2.1
    intro b q hbq
    exfalso
    have hmem : '?' ∈ "plain.js".data := by rw [hbq]; simp
    exact absurd hmem (by decide)
  · have h := sri_C3_amended.2.2 (fun k => k)
      (fun k => if k = "app.js" then some "sha256-AAAA" else none)
      ⟨"script", none, some "app.js?v123", none, none⟩ "app.js" "sha256-AAAA"
      (by decide) (by decide) (by decide)
    simpa using h

/-- C1: in the diamond 0 → {1, 2}, 1 → 3, 2 → 3, where both b.js and c.js
carry chunk 3's placeholder, the pass computes chunk 3's digest and splices it
into b.js, but `processChunkRecursive` returns `[]` for the already-visited
chunk 3 while chunk 2 is processed, so c.js keeps the literal placeholder and
its own digest is computed over the placeholder text — the claimed invariant
fails for the second parent. -/
theorem sri_C1_diamond_divergence :
    (optimizeAssetsPlugin dCtx [0] 10 dAssets).map
        (fun r => getHash r.2.hashByChunkId 3) =
      some (some (computeIntegrity ["sha256"] tHash "D".data)) ∧
    (optimizeAssetsPlugin dCtx [0] 10 dAssets).map
        (fun r => (getAsset r.1 "b.js").map (fun a => a.src)) =
      some (some ("B".data ++ computeIntegrity ["sha256"] tHash "D".data)) ∧
    (optimizeAssetsPlugin dCtx [0] 10 dAssets).map
        (fun r => (getAsset r.1 "c.js").map (fun a => a.src)) =
      some (some ("C".data ++ makePlaceholder 3)) := by
  refine ⟨by decide, by decide, by decide⟩

/-- Every asset coming out of the sweep carries some integrity value. -/
theorem sweepAssets_isSome (algos : List String) (hfn : String → Str → Str)
    (l : List (String × Asset)) :
    ∀ p ∈ sweepAssets algos hfn l, p.2.integrity.isSome = true := by
  induction l with
  | nil => intro p hp; simp [sweepAssets] at hp
  | cons kv tl ih =>
    intro p hp
    obtain ⟨k, a⟩ := kv
    simp only [sweepAssets, List.mem_cons] at hp
    rcases hp with hp | hp
    · subst hp
      by_cases hfa : isFalsyIntegrity a.integrity = true
      · simp [hfa]
      · cases ha : a.integrity with
        | none => exact absurd (by simp [isFalsyIntegrity, ha]) hfa
        | some s =>
          have hfa2 : isFalsyIntegrity (some s) = false := by
            rw [← ha]
            exact Bool.eq_false_iff.mpr hfa
          simp [hfa2, ha]
    · exact ih p hp

/-- An asset whose integrity is falsy before the sweep comes out with a digest
computed directly from its current content. -/
theorem sweepAssets_getAsset (algos : List String) (hfn : String → Str → Str)
    (l : List (String × Asset)) (k : String) (a : Asset)
    (h : getAsset l k = some a) (hfalsy : isFalsyIntegrity a.integrity = true) :
    getAsset (sweepAssets algos hfn l) k =
      some { a with integrity := some (computeIntegrity algos hfn a.src) } := by
  induction l with
  | nil => simp [getAsset] at h
  | cons kv tl ih =>
    obtain ⟨k0, a0⟩ := kv
    by_cases hk : k0 = k
    · subst hk
      simp [getAsset] at h
      subst h
      simp [sweepAssets, getAsset, hfalsy]
    · simp only [getAsset, if_neg hk] at h
      simp only [sweepAssets, getAsset, if_neg hk]
      exact ih h

/-- C8: after the optimize-assets handler completes, every asset carries an
integrity value, and every asset the resolution pass left without one receives
a digest computed directly from its content at sweep time, with no
substitution step. -/
theorem sri_C8_every_asset_annotated (ctx : Ctx) (roots : List Nat) (fuel : Nat)
    (assets0 final : List (String × Asset)) (st : RState)
    (h : optimizeAssetsPlugin ctx roots fuel assets0 = some (final, st)) :
    (∀ p ∈ final, p.2.integrity.isSome = true) ∧
    (∀ k a, getAsset st.assets k = some a → isFalsyIntegrity a.integrity = true →
      getAsset final k =
        some { a with integrity := some (computeIntegrity ctx.algos ctx.hashFn a.src) }) := by
  unfold optimizeAssetsPlugin at h
  cases hr : pcrRoots ctx fuel roots ⟨[], [], assets0, []⟩ with
  | none => rw [hr] at h; exact absurd h (by simp)
  | some s =>
    rw [hr] at h
    simp only [Option.some.injEq, Prod.mk.injEq] at h
    obtain ⟨hfin, hst⟩ := h
    subst hst
    subst hfin
    constructor
    · intro p hp
      exact sweepAssets_isSome ctx.algos ctx.hashFn s.assets p hp
    · intro k a hk hfalsy
      exact sweepAssets_getAsset ctx.algos ctx.hashFn s.assets k a hk hfalsy

/-- C8 witness: the diamond run succeeds and every final asset — including
extra.txt, which is outside the chunk graph — carries an integrity value. -/
theorem sri_C8_every_asset_annotated_w :
    ∃ r, optimizeAssetsPlugin dCtx [0] 10 dAssets = some r ∧
      ∀ p ∈ r.1, p.2.integrity.isSome = true := by
  cases heq : optimizeAssetsPlugin dCtx [0] 10 dAssets with
  | none => exact absurd heq (by decide)
  | some r =>
    exact ⟨r, rfl,
      (sri_C8_every_asset_annotated dCtx [0] 10 dAssets r.1 r.2 (by rw [heq])).1⟩

/-- Relation `LogSpec` is reflexive. -/
theorem logSpec_rfl (s : RState) : LogSpec s s :=
  ⟨fun _ hi => hi, [], by simp, List.nodup_nil, by simp⟩

/-- Relation `LogSpec` composes. -/
theorem logSpec_trans {s1 s2 s3 : RState} (h12 : LogSpec s1 s2) (h23 : LogSpec s2 s3) :
    LogSpec s1 s3 := by
  obtain ⟨hv12, nl1, hl1, hn1, hf1⟩ := h12
  obtain ⟨hv23, nl2, hl2, hn2, hf2⟩ := h23
  refine ⟨fun i hi => hv23 i (hv12 i hi), nl1 ++ nl2, ?_, ?_, ?_⟩
  · rw [hl2, hl1, List.append_assoc]
  · rw [List.nodup_append]
    refine ⟨hn1, hn2, ?_⟩
    intro i hi1 hi2
    exact (hf2 i hi2).1 ((hf1 i hi1).2)
  · intro i hi
    rcases List.mem_append.mp hi with hi | hi
    · exact ⟨(hf1 i hi).1, hv23 i (hf1 i hi).2⟩
    · exact ⟨fun hvi => (hf2 i hi).1 (hv12 i hvi), (hf2 i hi).2⟩

/-- The children loop preserves `LogSpec` whenever each step does. -/
theorem pcrFold_logSpec (step : Nat → RState → Option (List Nat × RState))
    (hstep : ∀ d s r, step d s = some r → LogSpec s r.2) :
    ∀ (l : List Nat) (s : RState) (r : List Nat × RState),
      pcrFold step l s = some r → LogSpec s r.2 := by
  intro l
  induction l with
  | nil =>
    intro s r h
    simp only [pcrFold, Option.some.injEq] at h
    rw [← h]
    exact logSpec_rfl s
  | cons d ds ih =>
    intro s r h
    simp only [pcrFold] at h
    split at h
    · simp at h
    · rename_i ids1 s1 heq1
      split at h
      · simp at h
      · rename_i ids2 s2 heq2
        simp only [Option.some.injEq] at h
        rw [← h]
        exact logSpec_trans (hstep d s (ids1, s1) heq1) (ih s1 (ids2, s2) heq2)

/-- Every successful `processChunkRecursive` call satisfies `LogSpec`: ids are
marked visited before their digest is logged, and a digest is logged only for
ids that were unvisited at call entry. -/
theorem processChunkRecursive_logSpec (ctx : Ctx) :
    ∀ (fuel c : Nat) (s : RState) (r : List Nat × RState),
      processChunkRecursive ctx fuel c s = some r → LogSpec s r.2 := by
  intro fuel
  induction fuel with
  | zero => intro c s r h; simp [processChunkRecursive] at h
  | succ fuel ih =>
    intro c s r h
    simp only [processChunkRecursive] at h
    by_cases hv : c ∈ s.visited
    · rw [if_pos hv] at h
      simp only [Option.some.injEq] at h
      rw [← h]
      exact logSpec_rfl s
    · rw [if_neg hv] at h
      split at h
      · simp at h
      · rename_i depIds s2 hfold
        have hspec1 : LogSpec { s with visited := c :: s.visited } s2 :=
          pcrFold_logSpec _ (fun d s3 r3 h3 => ih d s3 r3 h3) (ctx.children c)
            { s with visited := c :: s.visited } (depIds, s2) hfold
        obtain ⟨hvis, nl, hl, hn, hf⟩ := hspec1
        have hmono : ∀ i ∈ s.visited, i ∈ s2.visited :=
          fun i hi => hvis i (List.mem_cons_of_mem c hi)
        have hcv2 : c ∈ s2.visited := hvis c (List.mem_cons_self c s.visited)
        have hfree : ∀ i ∈ nl, i ∉ s.visited ∧ i ∈ s2.visited :=
          fun i hi => ⟨fun hmem => (hf i hi).1 (List.mem_cons_of_mem c hmem), (hf i hi).2⟩
        split at h
        · simp only [Option.some.injEq] at h
          rw [← h]
          exact ⟨hmono, nl, hl, hn, hfree⟩
        · rename_i file rest hfiles
          split at h
          · simp at h
          · rename_i asset hga
            simp only [Option.some.injEq] at h
            rw [← h]
            refine ⟨hmono, nl ++ [c], ?_, ?_, ?_⟩
            · show s2.hashLog ++ [c] = s.hashLog ++ (nl ++ [c])
              rw [hl, List.append_assoc]
            · rw [List.nodup_append]
              refine ⟨hn, List.nodup_singleton c, ?_⟩
              intro i hi hic
              rw [List.mem_singleton] at hic
              subst hic
              exact (hf i hi).1 (List.mem_cons_self i s.visited)
            · intro i hi
              rcases List.mem_append.mp hi with hi | hi
              · exact (hfree i hi)
              · rw [List.mem_singleton] at hi
                subst hi
                exact ⟨hv, hcv2⟩

/-- The roots loop preserves `LogSpec`. -/
theorem pcrRoots_logSpec (ctx : Ctx) (fuel : Nat) :
    ∀ (roots : List Nat) (s s2 : RState),
      pcrRoots ctx fuel roots s = some s2 → LogSpec s s2 := by
  intro roots
  induction roots with
  | nil =>
    intro s s2 h
    simp only [pcrRoots, Option.some.injEq] at h
    rw [← h]
    exact logSpec_rfl s
  | cons r rs ih =>
    intro s s2 h
    simp only [pcrRoots] at h
    cases h1 : processChunkRecursive ctx fuel r s with
    | none => rw [h1] at h; simp at h
    | some pr =>
      rw [h1] at h
      obtain ⟨ids, s1⟩ := pr
      exact logSpec_trans (processChunkRecursive_logSpec ctx fuel r s (ids, s1) h1) (ih s1 s2 h)

/-- C4: across the whole resolution pass — all roots together — the sequence
of digest computations contains each chunk id at most once: the shared
per-run visited set makes every digest computation unique. -/
theorem sri_C4_digest_computed_once (ctx : Ctx) (roots : List Nat) (fuel : Nat)
    (assets0 final : List (String × Asset)) (st : RState)
    (h : optimizeAssetsPlugin ctx roots fuel assets0 = some (final, st)) :
    st.hashLog.Nodup := by
  unfold optimizeAssetsPlugin at h
  cases hr : pcrRoots ctx fuel roots ⟨[], [], assets0, []⟩ with
  | none => rw [hr] at h; exact absurd h (by simp)
  | some s =>
    rw [hr] at h
    simp only [Option.some.injEq, Prod.mk.injEq] at h
    obtain ⟨_, hst⟩ := h
    subst hst
    obtain ⟨_, nl, hl, hn, _⟩ := pcrRoots_logSpec ctx fuel roots _ s hr
    rw [hl]
    simpa using hn

/-- C4 witness: the diamond run — where chunk 3 is shared by chunks 1 and
2 — succeeds with a duplicate-free digest log. -/
theorem sri_C4_digest_computed_once_w :
    ∃ r, optimizeAssetsPlugin dCtx [0] 10 dAssets = some r ∧ r.2.hashLog.Nodup := by
  cases heq : optimizeAssetsPlugin dCtx [0] 10 dAssets with
  | none => exact absurd heq (by decide)
  | some r =>
    exact ⟨r, rfl,
      sri_C4_digest_computed_once dCtx [0] 10 dAssets r.1 r.2 (by rw [heq])⟩

/-- On the self-loop graph, the child loop over `[0]` fails for every fuel:
the recursion descends into chunk 0 again even though its id is already
accumulated. -/
theorem findDepAux_loopG_none : ∀ (f : Nat) (acc : List Nat),
    findDepAux loopG f [0] acc = none := by
  intro f
  induction f with
  | zero => intro acc; rfl
  | succ f ih =>
    intro acc
    show findDepStep (fun d acc2 => findDepAux loopG f (loopG d) acc2) [0] acc = none
    simp only [findDepStep]
    simp [loopG, ih]

/-- C2 counterexample: on the cyclic graph where chunk 0 lists itself as a
child, `findDepChunks` succeeds for no recursion depth whatsoever — the
`includes` test only guards the push, not the recursion, so the traversal
re-enters chunk 0 forever (a JS stack overflow). -/
theorem sri_C2_cycle_diverges :
    ¬ ∃ (fuel : Nat) (res : List Nat), findDepChunks loopG fuel 0 [] = some res := by
  rintro ⟨fuel, res, h⟩
  cases fuel with
  | zero => simp [findDepChunks] at h
  | succ f =>
    rw [show findDepChunks loopG (Nat.succ f) 0 [] = findDepAux loopG f (loopG 0) [] from rfl,
      show loopG 0 = [0] from rfl, findDepAux_loopG_none f []] at h
    exact absurd h (by simp)

/-- The child loop only ever appends to the accumulator. -/
theorem findDepStep_extend (descend : Nat → List Nat → Option (List Nat))
    (hd : ∀ d a r, descend d a = some r → ∃ t, r = a ++ t) :
    ∀ (l acc res : List Nat), findDepStep descend l acc = some res → ∃ t, res = acc ++ t := by
  intro l
  induction l with
  | nil =>
    intro acc res h
    simp only [findDepStep, Option.some.injEq] at h
    exact ⟨[], by simp [h.symm]⟩
  | cons d ds ih =>
    intro acc res h
    simp only [findDepStep] at h
    split at h
    · simp at h
    · rename_i acc2 heq
      obtain ⟨t1, ht1⟩ := hd d (pushNew acc d) acc2 heq
      obtain ⟨t2, ht2⟩ := ih acc2 res h
      unfold pushNew at ht1
      by_cases hm : d ∈ acc
      · rw [if_pos hm] at ht1
        exact ⟨t1 ++ t2, by rw [ht2, ht1, List.append_assoc]⟩
      · rw [if_neg hm] at ht1
        exact ⟨[d] ++ t1 ++ t2, by rw [ht2, ht1]; simp⟩

/-- Function `findDepChunks` at any depth only ever appends to the accumulator. -/
theorem findDepAux_extend (g : Nat → List Nat) :
    ∀ (f : Nat) (l acc res : List Nat), findDepAux g f l acc = some res →
      ∃ t, res = acc ++ t := by
  intro f
  induction f with
  | zero =>
    intro l acc res h
    cases l with
    | nil =>
      simp only [findDepAux, Option.some.injEq] at h
      exact ⟨[], by simp [h.symm]⟩
    | cons d ds => simp [findDepAux] at h
  | succ f ih =>
    intro l acc res h
    exact findDepStep_extend _ (fun d a r hr => ih (g d) a r hr) l acc res h

/-- The conditional push keeps the accumulator duplicate-free. -/
theorem pushNew_nodup (acc : List Nat) (d : Nat) (h : acc.Nodup) : (pushNew acc d).Nodup := by
  unfold pushNew
  by_cases hm : d ∈ acc
  · rw [if_pos hm]; exact h
  · rw [if_neg hm]
    rw [List.nodup_append]
    refine ⟨h, List.nodup_singleton d, ?_⟩
    intro a ha hb
    rw [List.mem_singleton] at hb
    subst hb
    exact hm ha

/-- The child loop keeps the accumulator duplicate-free. -/
theorem findDepStep_nodup (descend : Nat → List Nat → Option (List Nat))
    (hd : ∀ d a r, descend d a = some r → a.Nodup → r.Nodup) :
    ∀ (l acc res : List Nat), findDepStep descend l acc = some res →
      acc.Nodup → res.Nodup := by
  intro l
  induction l with
  | nil =>
    intro acc res h hacc
    simp only [findDepStep, Option.some.injEq] at h
    rw [← h]
    exact hacc
  | cons d ds ih =>
    intro acc res h hacc
    simp only [findDepStep] at h
    split at h
    · simp at h
    · rename_i acc2 heq
      exact ih acc2 res h (hd d (pushNew acc d) acc2 heq (pushNew_nodup acc d hacc))

/-- Function `findDepChunks` at any depth keeps the accumulator duplicate-free. -/
theorem findDepAux_nodup (g : Nat → List Nat) :
    ∀ (f : Nat) (l acc res : List Nat), findDepAux g f l acc = some res →
      acc.Nodup → res.Nodup := by
  intro f
  induction f with
  | zero =>
    intro l acc res h hacc
    cases l with
    | nil =>
      simp only [findDepAux, Option.some.injEq] at h
      rw [← h]
      exact hacc
    | cons d ds => simp [findDepAux] at h
  | succ f ih =>
    intro l acc res h
    exact findDepStep_nodup _ (fun d a r hr => ih (g d) a r hr) l acc res h

/-- The child loop succeeds when descending succeeds on each listed child. -/
theorem findDepStep_suffices (descend : Nat → List Nat → Option (List Nat))
    (P : Nat → Prop) (hd : ∀ d a, P d → (descend d a).isSome = true) :
    ∀ (l acc : List Nat), (∀ d ∈ l, P d) → (findDepStep descend l acc).isSome = true := by
  intro l
  induction l with
  | nil => intro acc _; rfl
  | cons d ds ih =>
    intro acc hl
    simp only [findDepStep]
    cases hcall : descend d (pushNew acc d) with
    | none =>
      have hds := hd d (pushNew acc d) (hl d (List.mem_cons_self d ds))
      rw [hcall] at hds
      simp at hds
    | some acc2 => exact ih acc2 (fun e he => hl e (List.mem_cons_of_mem d he))

/-- On a graph admitting a strictly decreasing depth measure, any fuel above
the measure suffices: the traversal terminates on depth-bounded graphs. -/
theorem findDepAux_suffices (g : Nat → List Nat) (m : Nat → Nat)
    (hm : ∀ c d, d ∈ g c → m d < m c) :
    ∀ (f : Nat) (l acc : List Nat), (∀ d ∈ l, m d < f) →
      (findDepAux g f l acc).isSome = true := by
  intro f
  induction f with
  | zero =>
    intro l acc hl
    cases l with
    | nil => rfl
    | cons d ds => exact absurd (hl d (List.mem_cons_self d ds)) (by omega)
  | succ f ih =>
    intro l acc hl
    show (findDepStep (fun d acc2 => findDepAux g f (g d) acc2) l acc).isSome = true
    refine findDepStep_suffices _ (fun d => m d < Nat.succ f) ?_ l acc hl
    intro d a hPd
    exact ih (g d) a (fun e he => by have := hm d e he; omega)

/-- Every listed child gives rise to a successful nested descent whose result
the loop's final accumulator extends, and the child is in the nested call's
accumulator. -/
theorem findDepStep_invert (descend : Nat → List Nat → Option (List Nat))
    (hd : ∀ d a r, descend d a = some r → ∃ t, r = a ++ t) :
    ∀ (l acc res : List Nat), findDepStep descend l acc = some res → ∀ d ∈ l,
      ∃ a r, descend d (pushNew a d) = some r ∧ ∃ t, res = r ++ t := by
  intro l
  induction l with
  | nil => intro acc res h d hdm; simp at hdm
  | cons d0 ds ih =>
    intro acc res h d hdm
    simp only [findDepStep] at h
    split at h
    · simp at h
    · rename_i acc2 heq
      rcases List.mem_cons.mp hdm with hdd | hdd
      · subst hdd
        exact ⟨acc, acc2, heq, findDepStep_extend descend hd ds acc2 res h⟩
      · exact ih acc2 res h d hdd

/-- The pushed accumulator contains the pushed id. -/
theorem mem_pushNew (acc : List Nat) (d : Nat) : d ∈ pushNew acc d := by
  unfold pushNew
  by_cases hm : d ∈ acc
  · rw [if_pos hm]; exact hm
  · rw [if_neg hm]; simp

/-- Every id reachable from the start chunk ends up in a successful
accumulation. -/
theorem findDepChunks_complete (g : Nat → List Nat) :
    ∀ (c e : Nat), Reach g c e → ∀ (fuel : Nat) (acc res : List Nat),
      findDepChunks g fuel c acc = some res → e ∈ res := by
  intro c e hreach
  induction hreach with
  | @child c2 d2 hmem =>
    intro fuel acc res h
    cases fuel with
    | zero => simp [findDepChunks] at h
    | succ f =>
      rw [show findDepChunks g (Nat.succ f) c2 acc = findDepAux g f (g c2) acc from rfl] at h
      cases f with
      | zero =>
        cases hgc : g c2 with
        | nil => rw [hgc] at hmem; simp at hmem
        | cons x xs => rw [hgc] at h; simp [findDepAux] at h
      | succ f2 =>
        rw [show findDepAux g (Nat.succ f2) (g c2) acc =
            findDepStep (fun d acc2 => findDepAux g f2 (g d) acc2) (g c2) acc from rfl] at h
        obtain ⟨a, r, hcall, t, ht⟩ :=
          findDepStep_invert _ (fun d a2 r2 h2 => findDepAux_extend g f2 (g d) a2 r2 h2)
            (g c2) acc res h d2 hmem
        obtain ⟨t2, ht2⟩ := findDepAux_extend g f2 (g d2) (pushNew a d2) r hcall
        rw [ht, ht2]
        exact List.mem_append_left _ (List.mem_append_left _ (mem_pushNew a d2))
  | @step c2 d2 e2 hmem hreach2 ih =>
    intro fuel acc res h
    cases fuel with
    | zero => simp [findDepChunks] at h
    | succ f =>
      rw [show findDepChunks g (Nat.succ f) c2 acc = findDepAux g f (g c2) acc from rfl] at h
      cases f with
      | zero =>
        cases hgc : g c2 with
        | nil => rw [hgc] at hmem; simp at hmem
        | cons x xs => rw [hgc] at h; simp [findDepAux] at h
      | succ f2 =>
        rw [show findDepAux g (Nat.succ f2) (g c2) acc =
            findDepStep (fun d acc2 => findDepAux g f2 (g d) acc2) (g c2) acc from rfl] at h
        obtain ⟨a, r, hcall, t, ht⟩ :=
          findDepStep_invert _ (fun d a2 r2 h2 => findDepAux_extend g f2 (g d) a2 r2 h2)
            (g c2) acc res h d2 hmem
        have he2 : e2 ∈ r :=
          ih (Nat.succ f2) (pushNew a d2) r
            (show findDepChunks g (Nat.succ f2) d2 (pushNew a d2) = some r from hcall)
        rw [ht]
        exact List.mem_append_left _ he2

/-- C2 amended: on depth-bounded (in particular acyclic) graphs the traversal
terminates — any fuel above a strictly decreasing depth measure succeeds — and
a successful collection only appends to the accumulator, keeps it
duplicate-free (each id is accumulated at most once; re-encountering a present
id adds nothing), and contains every transitively reachable id.  On cyclic
graphs the recursion does not terminate, because an already-accumulated id is
still traversed into. -/
theorem sri_C2_amended (g : Nat → List Nat) :
    (∀ m : Nat → Nat, (∀ c d, d ∈ g c → m d < m c) →
      ∀ (fuel c : Nat) (acc : List Nat), m c < fuel →
        (findDepChunks g fuel c acc).isSome = true) ∧
    (∀ (fuel c : Nat) (acc res : List Nat), findDepChunks g fuel c acc = some res →
      (∃ t, res = acc ++ t) ∧ (acc.Nodup → res.Nodup) ∧ ∀ e, Reach g c e → e ∈ res) := by
  constructor
  · intro m hm fuel c acc hfuel
    cases fuel with
    | zero => exact absurd hfuel (by omega)
    | succ f =>
      show (findDepAux g f (g c) acc).isSome = true
      exact findDepAux_suffices g m hm f (g c) acc
        (fun d hd => by have := hm c d hd; omega)
  · intro fuel c acc res h
    refine ⟨?_, ?_, ?_⟩
    · cases fuel with
      | zero => simp [findDepChunks] at h
      | succ f => exact findDepAux_extend g f (g c) acc res h
    · intro hacc
      cases fuel with
      | zero => simp [findDepChunks] at h
      | succ f => exact findDepAux_nodup g f (g c) acc res h hacc
    · intro e hre
      exact findDepChunks_complete g c e hre fuel acc res h

/-- C2 amended witness: on the acyclic chain 0 → 1 with its one-step measure,
fuel 2 succeeds, the result `[1]` extends the empty accumulator, is
duplicate-free, and contains the reachable id 1. -/
theorem sri_C2_amended_w :
    (findDepChunks wG 2 0 []).isSome = true ∧
    (∃ t, [1] = ([] : List Nat) ++ t) ∧
    (([] : List Nat).Nodup → ([1] : List Nat).Nodup) ∧
    (1 : Nat) ∈ ([1] : List Nat) := by
  have hwm : ∀ c d, d ∈ wG c → wM d < wM c := by
    intro c d hd
    by_cases hc : c = 0
    · subst hc
      simp [wG] at hd
      subst hd
      decide
    · simp [wG, hc] at hd
  have h2 := (sri_C2_amended wG).2 2 0 [] [1] (by decide)
  exact ⟨(sri_C2_amended wG).1 wM hwm 2 0 [] (by decide), h2.1, h2.2.1,
    h2.2.2 1 (Reach.child (by decide))⟩

end SRI
